import Mathlib

/-!
Shallow embedding of the `z32` z-base32 encoder (`src/lib.rs`) and proofs of the
specification's claims about it.

Modelling conventions:
* A Rust `u8` is a `Nat`; where a byte bound matters, theorems assume every
  element of the buffer is `< 256` (which the Rust type guarantees).
* Rust `u8` left shift truncates to 8 bits, hence the explicit `% 256` after `<<<`.
* A Rust panic (out-of-bounds slice index, out-of-range alphabet index) is
  modelled by `Option`: `none` means the call panics, `some s` means it returns
  the string whose character list is `s`.  The final
  `String::from_utf8_unchecked` of the source is modelled by returning the list
  of (ASCII) characters pushed into the vector.
* The loop `for p in (0..bits).step_by(5)` is embedded twice: `encLoop` keeps
  the source's `p < bits` guard literally (well-founded recursion), and
  `encGroups` counts the iterations (the source's own `capacity` expression,
  `numGroups`, is exactly that count).  `encLoop_eq_encGroups` proves the two
  agree, and `encode` uses the structural form so that it evaluates by `decide`.
-/

namespace Z32

/-- The z-base32 alphabet constant `ALPHABET` of the source, as the list of its
32 ASCII characters. -/
def ALPHABET : List Char := "ybndrfg8ejkmcpqxot1uwisza345h769".toList

/-- One iteration body of the `encode` loop of the source at bit position `p`:
computes the 5-bit group value pushed through the alphabet.  Mirrors the source:
`i = p >> 3`, `j = p & 7`; if `j <= 3` the group is `(buf[i] >> (3 - j)) & 0b11111`;
otherwise `of = j - 3`, high part `(buf[i] << of) & 0b11111` (with the `u8`
truncation `% 256`), low part `0` when `i >= buf.len() - 1` and
`buf[i+1] >> (8 - of)` otherwise, combined with `|||`.  `none` models the panic
of an out-of-bounds index `buf[i]` or `buf[i+1]`. -/
def groupValue (buf : List Nat) (p : Nat) : Option Nat :=
  let i := p >>> 3
  let j := p &&& 7
  if j ≤ 3 then
    (buf[i]?).map (fun b => (b >>> (3 - j)) &&& 31)
  else
    let o := j - 3
    (buf[i]?).bind (fun b =>
      let h := ((b <<< o) % 256) &&& 31
      let l? : Option Nat :=
        if buf.length - 1 ≤ i then some 0
        else (buf[i + 1]?).map (fun b2 => b2 >>> (8 - o))
      l?.map (fun l => h ||| l))

/-- The `for p in (0..bits).step_by(5)` loop of `encode`, starting at bit
position `p`: while `p < bits`, push `ALPHABET[groupValue p]` and advance `p`
by 5.  `none` models a panic of the loop body (bad slice index or alphabet
index `≥ 32`). -/
def encLoop (buf : List Nat) (bits : Nat) (p : Nat) : Option (List Char) :=
  if p < bits then
    (groupValue buf p).bind (fun v =>
      (ALPHABET[v]?).bind (fun c =>
        (encLoop buf bits (p + 5)).map (fun rest => c :: rest)))
  else some []
termination_by bits - p
decreasing_by omega

/-- The loop re-expressed by the number `n` of remaining 5-bit groups starting
at bit position `p`; related to `encLoop` by `encLoop_eq_encGroups`. -/
def encGroups (buf : List Nat) : Nat → Nat → Option (List Char)
  | 0, _ => some []
  | n + 1, p =>
    (groupValue buf p).bind (fun v =>
      (ALPHABET[v]?).bind (fun c =>
        (encGroups buf n (p + 5)).map (fun rest => c :: rest)))

/-- The source's `capacity` expression: `bits / 5` when `bits % 5 == 0`, else
`bits / 5 + 1`; this is `ceil(bits / 5)`, the number of loop iterations. -/
def numGroups (bits : Nat) : Nat :=
  if bits % 5 = 0 then bits / 5 else bits / 5 + 1

/-- `z32::encode(buf, bits)`: run the loop from bit position 0 for its
`numGroups bits` iterations (see `encode_eq_encLoop` for agreement with the
guard-form loop). -/
def encode (buf : List Nat) (bits : Nat) : Option (List Char) :=
  encGroups buf (numGroups bits) 0

/-- `z32::encode_full_bytes(buf) = encode(buf, buf.len() * 8)`. -/
def encode_full_bytes (buf : List Nat) : Option (List Char) :=
  encode buf (buf.length * 8)

/-- Group value of the final 5-bit group of `encode buf bits` (the group at bit
position `5 * (ceil(bits/5) - 1)`). -/
def lastGroupValue (buf : List Nat) (bits : Nat) : Option Nat :=
  groupValue buf (5 * ((bits + 4) / 5 - 1))

/-- The spec's formula (claim C1) for the `k`-th 5-bit group value, written from
the spec's words with `p = 5k`, `i = p / 8`, `j = p mod 8`; out-of-range reads
default to `0` (the spec's preconditions keep all reads in range). -/
def specGroupValue (buf : List Nat) (k : Nat) : Nat :=
  let p := 5 * k
  let i := p / 8
  let j := p % 8
  if j ≤ 3 then (buf.getD i 0 >>> (3 - j)) &&& 31
  else
    let o := j - 3
    let low := if buf.length - 1 ≤ i then 0 else buf.getD (i + 1) 0 >>> (8 - o)
    ((buf.getD i 0 <<< o) &&& 31) ||| low

/-! ### Arithmetic helper lemmas -/

lemma and_seven (p : Nat) : p &&& 7 = p % 8 := by
  simpa using Nat.and_pow_two_sub_one_eq_mod p 3

lemma and_thirtyone (x : Nat) : x &&& 31 = x % 32 := by
  simpa using Nat.and_pow_two_sub_one_eq_mod x 5

lemma shiftRight_three (p : Nat) : p >>> 3 = p / 8 := by
  rw [Nat.shiftRight_eq_div_pow]

lemma mod256_and31 (x : Nat) : (x % 256) &&& 31 = x &&& 31 := by
  rw [and_thirtyone, and_thirtyone, Nat.mod_mod_of_dvd]
  norm_num

/-! ### The guard-form loop equals the counted loop -/

lemma encLoop_eq_encGroups (buf : List Nat) (bits : Nat) :
    ∀ d p, bits - p ≤ d → encLoop buf bits p = encGroups buf ((bits - p + 4) / 5) p := by
  intro d
  induction d with
  | zero =>
    intro p hp
    rw [encLoop]
    have h1 : ¬ p < bits := by omega
    have h2 : (bits - p + 4) / 5 = 0 := by omega
    simp [h1, h2, encGroups]
  | succ d ih =>
    intro p hp
    rw [encLoop]
    by_cases h : p < bits
    · have hn : (bits - p + 4) / 5 = (bits - (p + 5) + 4) / 5 + 1 := by omega
      rw [hn]
      simp only [h, if_true]
      rw [ih (p + 5) (by omega)]
      rfl
    · have h2 : (bits - p + 4) / 5 = 0 := by omega
      simp [h, h2, encGroups]

lemma encode_eq_encLoop (buf : List Nat) (bits : Nat) :
    encode buf bits = encLoop buf bits 0 := by
  rw [encLoop_eq_encGroups buf bits bits 0 (by omega)]
  have h : (bits - 0 + 4) / 5 = numGroups bits := by
    unfold numGroups
    split <;> omega
  rw [h]
  rfl

lemma numGroups_eq (bits : Nat) : numGroups bits = (bits + 4) / 5 := by
  unfold numGroups
  split <;> omega

lemma ALPHABET_length : ALPHABET.length = 32 := by decide

/-! ### Characterisation and bound for one 5-bit group -/

lemma groupValue_eq_if (buf : List Nat) (p : Nat) (hi : p / 8 < buf.length) :
    groupValue buf p =
      if p % 8 ≤ 3 then some ((buf.getD (p / 8) 0 >>> (3 - p % 8)) &&& 31)
      else if buf.length - 1 ≤ p / 8 then
        some ((((buf.getD (p / 8) 0 <<< (p % 8 - 3)) % 256) &&& 31) ||| 0)
      else
        some ((((buf.getD (p / 8) 0 <<< (p % 8 - 3)) % 256) &&& 31) |||
          (buf.getD (p / 8 + 1) 0 >>> (8 - (p % 8 - 3)))) := by
  have hD : buf.getD (p / 8) 0 = buf[p / 8] := by
    simp [List.getD_eq_getElem?_getD, List.getElem?_eq_getElem hi]
  unfold groupValue
  simp only [shiftRight_three, and_seven]
  rw [List.getElem?_eq_getElem hi]
  by_cases hj : p % 8 ≤ 3
  · simp [hj, List.getElem?_eq_getElem hi]
  · simp only [hj, if_false, Option.some_bind]
    by_cases hl : buf.length - 1 ≤ p / 8
    · simp [hl, List.getElem?_eq_getElem hi]
    · have hi1 : p / 8 + 1 < buf.length := by omega
      simp [hl, List.getElem?_eq_getElem hi, List.getElem?_eq_getElem hi1]

lemma groupValue_eq_spec (buf : List Nat) (k : Nat) (hi : 5 * k / 8 < buf.length) :
    groupValue buf (5 * k) = some (specGroupValue buf k) := by
  rw [groupValue_eq_if buf (5 * k) hi]
  unfold specGroupValue
  simp only [mod256_and31]
  split
  · rfl
  · split
    · simp
    · rfl

lemma groupValue_lt (buf : List Nat) (p : Nat) (hbytes : ∀ b ∈ buf, b < 256)
    (hi : p / 8 < buf.length) : ∃ v, groupValue buf p = some v ∧ v < 32 := by
  rw [groupValue_eq_if buf p hi]
  split
  · refine ⟨_, rfl, ?_⟩
    have h := and_thirtyone (buf.getD (p / 8) 0 >>> (3 - p % 8))
    omega
  · split
    · refine ⟨_, rfl, ?_⟩
      have h := and_thirtyone ((buf.getD (p / 8) 0 <<< (p % 8 - 3)) % 256)
      have h0 := Nat.or_zero ((buf.getD (p / 8) 0 <<< (p % 8 - 3)) % 256 &&& 31)
      omega
    · rename_i hj hl
      have hh : ((buf.getD (p / 8) 0 <<< (p % 8 - 3)) % 256) &&& 31 < 32 := by
        have h := and_thirtyone ((buf.getD (p / 8) 0 <<< (p % 8 - 3)) % 256)
        omega
      have hi1 : p / 8 + 1 < buf.length := by omega
      have hb2 : buf.getD (p / 8 + 1) 0 < 256 := by
        have : buf.getD (p / 8 + 1) 0 = buf[p / 8 + 1] := by
          simp [List.getD_eq_getElem?_getD, List.getElem?_eq_getElem hi1]
        rw [this]
        exact hbytes _ (List.getElem_mem hi1)
      have hjm : p % 8 ≤ 7 := by omega
      have he : 16 ≤ 2 ^ (8 - (p % 8 - 3)) := by
        calc (16 : Nat) = 2 ^ 4 := by norm_num
        _ ≤ 2 ^ (8 - (p % 8 - 3)) := Nat.pow_le_pow_right (by norm_num) (by omega)
      have hlo : buf.getD (p / 8 + 1) 0 >>> (8 - (p % 8 - 3)) < 32 := by
        rw [Nat.shiftRight_eq_div_pow]
        rw [Nat.div_lt_iff_lt_mul (by omega)]
        have : 32 * 16 ≤ 32 * 2 ^ (8 - (p % 8 - 3)) := Nat.mul_le_mul_left 32 he
        omega
      refine ⟨_, rfl, ?_⟩
      have := Nat.or_lt_two_pow (n := 5) (by simpa using hh) (by simpa using hlo)
      simpa using this

/-! ### Structure of the encode loop -/

lemma encGroups_sound (buf : List Nat) :
    ∀ n p s, encGroups buf n p = some s →
      s.length = n ∧
        ∀ k, k < n → s[k]? = (groupValue buf (p + 5 * k)).bind (fun v => ALPHABET[v]?) := by
  intro n
  induction n with
  | zero =>
    intro p s hs
    simp only [encGroups, Option.some_inj] at hs
    subst hs
    exact ⟨rfl, fun k hk => by omega⟩
  | succ n ih =>
    intro p s hs
    simp only [encGroups, Option.bind_eq_some, Option.map_eq_some'] at hs
    obtain ⟨v, hv, c, hc, rest, hrest, hs⟩ := hs
    subst hs
    obtain ⟨hlen, hget⟩ := ih (p + 5) rest hrest
    refine ⟨by simp [hlen], ?_⟩
    intro k hk
    cases k with
    | zero => simp [hv, hc]
    | succ k =>
      have harith : p + 5 * (k + 1) = p + 5 + 5 * k := by ring
      rw [harith]
      simpa using hget k (by omega)

lemma encGroups_isSome (buf : List Nat) :
    ∀ n p,
      (∀ k, k < n → ∃ c, (groupValue buf (p + 5 * k)).bind (fun v => ALPHABET[v]?) = some c) →
      ∃ s, encGroups buf n p = some s := by
  intro n
  induction n with
  | zero => exact fun p _ => ⟨[], rfl⟩
  | succ n ih =>
    intro p hall
    obtain ⟨c, hc⟩ := hall 0 (by omega)
    simp only [Nat.mul_zero, Nat.add_zero] at hc
    obtain ⟨rest, hrest⟩ := ih (p + 5) (fun k hk => by
      have harith : p + 5 + 5 * k = p + 5 * (k + 1) := by ring
      rw [harith]
      exact hall (k + 1) (by omega))
    obtain ⟨v, hv, hva⟩ := Option.bind_eq_some.mp hc
    exact ⟨c :: rest, by simp [encGroups, hv, hva, hrest]⟩

lemma encGroups_append (buf : List Nat) :
    ∀ n m p, encGroups buf (n + m) p =
      (encGroups buf n p).bind (fun a =>
        (encGroups buf m (p + 5 * n)).map (fun b => a ++ b)) := by
  intro n
  induction n with
  | zero =>
    intro m p
    simp only [Nat.zero_add, encGroups, Option.some_bind, Nat.mul_zero, Nat.add_zero]
    cases encGroups buf m p <;> simp
  | succ n ih =>
    intro m p
    have hshift : n + 1 + m = (n + m) + 1 := by omega
    rw [hshift]
    simp only [encGroups]
    rw [ih m (p + 5)]
    have harith : p + 5 + 5 * n = p + 5 * (n + 1) := by ring
    rw [harith]
    cases groupValue buf p with
    | none => simp
    | some v =>
      cases h : ALPHABET[v]? with
      | none => simp [h]
      | some c =>
        simp only [Option.some_bind, h]
        cases encGroups buf n (p + 5) with
        | none => simp
        | some a =>
          cases encGroups buf m (p + 5 * (n + 1)) <;> simp

lemma encGroups_mem (buf : List Nat) :
    ∀ n p s, encGroups buf n p = some s → ∀ c, c ∈ s → c ∈ ALPHABET := by
  intro n
  induction n with
  | zero =>
    intro p s hs
    simp only [encGroups, Option.some_inj] at hs
    subst hs
    simp
  | succ n ih =>
    intro p s hs
    simp only [encGroups, Option.bind_eq_some, Option.map_eq_some'] at hs
    obtain ⟨v, hv, c, hc, rest, hrest, hs⟩ := hs
    subst hs
    intro x hx
    rcases List.mem_cons.mp hx with hx | hx
    · subst hx
      exact List.getElem?_mem hc
    · exact ih (p + 5) rest hrest x hx

/-- On the documented domain every loop iteration succeeds: `encode` returns a
string of exactly `ceil(bits/5)` characters, whose `k`-th character is the
alphabet entry of the `k`-th group value. -/
lemma encode_some (buf : List Nat) (bits : Nat) (hbytes : ∀ b ∈ buf, b < 256)
    (hbits : bits ≤ 8 * buf.length) :
    ∃ s, encode buf bits = some s ∧ s.length = (bits + 4) / 5 ∧
      ∀ k, k < (bits + 4) / 5 →
        s[k]? = (groupValue buf (5 * k)).bind (fun v => ALPHABET[v]?) := by
  have hall : ∀ k, k < numGroups bits →
      ∃ c, (groupValue buf (0 + 5 * k)).bind (fun v => ALPHABET[v]?) = some c := by
    intro k hk
    rw [numGroups_eq] at hk
    have hp : 5 * k < bits := by omega
    have hi : 5 * k / 8 < buf.length := by omega
    obtain ⟨v, hv, hvlt⟩ := groupValue_lt buf (5 * k) hbytes hi
    have hvA : v < ALPHABET.length := by rw [ALPHABET_length]; omega
    refine ⟨ALPHABET[v], ?_⟩
    simp [Nat.zero_add, hv, List.getElem?_eq_getElem hvA]
  obtain ⟨s, hs⟩ := encGroups_isSome buf (numGroups bits) 0 hall
  obtain ⟨hlen, hget⟩ := encGroups_sound buf (numGroups bits) 0 s hs
  refine ⟨s, hs, by rw [hlen, numGroups_eq], ?_⟩
  intro k hk
  have hk' : k < numGroups bits := by rw [numGroups_eq]; omega
  simpa using hget k hk'

/-- The UTF-8 bytes of `"The quick brown fox jumps over the lazy dog. 👀"`
(the test-vector input; see `foxBytes_eq_toUTF8`). -/
def foxBytes : List Nat :=
  [84, 104, 101, 32, 113, 117, 105, 99, 107, 32, 98, 114, 111, 119, 110, 32,
   102, 111, 120, 32, 106, 117, 109, 112, 115, 32, 111, 118, 101, 114, 32,
   116, 104, 101, 32, 108, 97, 122, 121, 32, 100, 111, 103, 46, 32,
   240, 159, 145, 128]

set_option maxRecDepth 4000 in
lemma foxBytes_eq_utf8 :
    foxBytes =
      ("The quick brown fox jumps over the lazy dog. 👀".toList.flatMap
        (fun c => (String.utf8EncodeChar c).map (fun b => b.toNat))) := by decide

/-! ### The claims -/

/-- C1: for every byte buffer and `bits ≤ 8 * length buf`, the `k`-th character
of `encode buf bits` (for `k < ceil(bits/5)`) is `ALPHABET[v]` where `v` is the
spec's group-value formula `specGroupValue buf k` (with `p = 5k`, `i = p / 8`,
`j = p mod 8`, in-byte extraction for `j ≤ 3` and the two-byte overflow
combination otherwise), one character per 5-bit group, left to right. -/
theorem encode_kth_char (buf : List Nat) (bits k : Nat)
    (hbytes : ∀ b ∈ buf, b < 256) (hbits : bits ≤ 8 * buf.length)
    (hk : k < (bits + 4) / 5) :
    ∃ s c, encode buf bits = some s ∧ specGroupValue buf k < 32 ∧
      ALPHABET[specGroupValue buf k]? = some c ∧ s[k]? = some c := by
  obtain ⟨s, hs, hlen, hget⟩ := encode_some buf bits hbytes hbits
  have hp : 5 * k < bits := by omega
  have hi : 5 * k / 8 < buf.length := by omega
  have hgv := groupValue_eq_spec buf k hi
  obtain ⟨v, hv, hvlt⟩ := groupValue_lt buf (5 * k) hbytes hi
  have hveq : specGroupValue buf k = v := by
    rw [hv] at hgv
    exact Option.some_inj.mp hgv.symm
  have hsl : specGroupValue buf k < 32 := by omega
  have hAlen : specGroupValue buf k < ALPHABET.length := by
    rw [ALPHABET_length]
    omega
  refine ⟨s, ALPHABET[specGroupValue buf k], hs, hsl,
    List.getElem?_eq_getElem hAlen, ?_⟩
  rw [hget k hk, hgv, Option.some_bind]
  exact List.getElem?_eq_getElem hAlen

theorem encode_kth_char_witness :
    ((∀ b ∈ ([128] : List Nat), b < 256) ∧ 5 ≤ 8 * ([128] : List Nat).length ∧
      0 < (5 + 4) / 5) ∧
    ∃ s c, encode [128] 5 = some s ∧ specGroupValue [128] 0 < 32 ∧
      ALPHABET[specGroupValue [128] 0]? = some c ∧ s[0]? = some c :=
  ⟨⟨by decide, by decide, by decide⟩,
    encode_kth_char [128] 5 0 (by decide) (by decide) (by decide)⟩

/-- C2: the claim (and the source's own doc comment, "Panics if `data` is
shorter than N `bits`") says every call with `bits > 8 * length buf` fails
fatally; but at `buf = [0x80]`, `bits = 9` the loop only visits bit positions 0
and 5, both served from byte 0 (the second group zero-pads because
`i >= buf.len() - 1`), so the code returns the string `"oy"` normally. -/
theorem encode_overlong_returns :
    9 > 8 * ([128] : List Nat).length ∧ encode [128] 9 = some ['o', 'y'] :=
  ⟨by decide, by decide⟩

/-- C3 (counterexample): the claim says the last group value of a valid call
with `bits` not a multiple of 5 is zero in its `5 - bits % 5` low bits; at
`buf = [0xFF]`, `bits = 3` the (only) group value is 31, and `31 % 2^(5-3) ≠ 0`:
the code reads the whole last byte, beyond the declared bit-length. -/
theorem encode_pad_claim_cex :
    0 < 3 ∧ 3 ≤ 8 * ([255] : List Nat).length ∧ 3 % 5 ≠ 0 ∧
    lastGroupValue [255] 3 = some 31 ∧ ¬ 31 % 2 ^ (5 - 3 % 5) = 0 := by
  refine ⟨by decide, by decide, by decide, by decide, by decide⟩

/-- C3 (amended): zero-padding of the final group applies only to bits lying
beyond the end of the buffer, not to bits beyond the declared `bits`: when the
final group (at bit position `5 * (ceil(bits/5) - 1)`) overruns the buffer,
its `5 * ceil(bits/5) - 8 * length buf` low-order bits are zero. -/
theorem encode_tail_padding (buf : List Nat) (bits : Nat)
    (_h1 : 0 < bits) (h2 : bits ≤ 8 * buf.length)
    (h3 : 8 * buf.length < 5 * ((bits + 4) / 5)) :
    ∃ v, lastGroupValue buf bits = some v ∧
      v % 2 ^ (5 * ((bits + 4) / 5) - 8 * buf.length) = 0 := by
  unfold lastGroupValue
  set p := 5 * ((bits + 4) / 5 - 1) with hp
  have hlen : 1 ≤ buf.length := by omega
  have hp1 : p < bits := by omega
  have hp2 : 8 * buf.length < p + 5 := by omega
  have hi : p / 8 < buf.length := by omega
  have hnle : ¬ p % 8 ≤ 3 := by omega
  have hle : buf.length - 1 ≤ p / 8 := by omega
  rw [groupValue_eq_if buf p hi]
  simp only [hnle, if_false, hle, if_true]
  refine ⟨_, rfl, ?_⟩
  have hoeq : 5 * ((bits + 4) / 5) - 8 * buf.length = p % 8 - 3 := by omega
  rw [hoeq, Nat.or_zero, and_thirtyone, Nat.shiftLeft_eq]
  have hdvd32 : 2 ^ (p % 8 - 3) ∣ 32 := by
    have h32 : (32 : Nat) = 2 ^ 5 := by norm_num
    rw [h32]
    exact Nat.pow_dvd_pow 2 (by omega)
  have hdvd256 : (32 : Nat) ∣ 256 := by norm_num
  rw [Nat.mod_mod_of_dvd _ hdvd256, Nat.mod_mod_of_dvd _ hdvd32]
  exact Nat.mul_mod_left _ _

theorem encode_tail_padding_witness :
    (0 < 6 ∧ 6 ≤ 8 * ([128] : List Nat).length ∧
      8 * ([128] : List Nat).length < 5 * ((6 + 4) / 5)) ∧
    ∃ v, lastGroupValue [128] 6 = some v ∧
      v % 2 ^ (5 * ((6 + 4) / 5) - 8 * ([128] : List Nat).length) = 0 :=
  ⟨⟨by decide, by decide, by decide⟩,
    encode_tail_padding [128] 6 (by decide) (by decide) (by decide)⟩

/-- C4: for every valid `(buf, bits)` the output has exactly `ceil(bits/5)`
(i.e. `(bits + 4) / 5`) characters, and in particular `encode buf 0` is the
empty string. -/
theorem encode_length (buf : List Nat) (bits : Nat)
    (hbytes : ∀ b ∈ buf, b < 256) (hbits : bits ≤ 8 * buf.length) :
    ∃ s, encode buf bits = some s ∧ s.length = (bits + 4) / 5 ∧
      (bits = 0 → s = []) := by
  obtain ⟨s, hs, hlen, _⟩ := encode_some buf bits hbytes hbits
  refine ⟨s, hs, hlen, ?_⟩
  intro h0
  subst h0
  have h : s.length = 0 := by simpa using hlen
  exact List.length_eq_zero.mp h

theorem encode_length_witness :
    ((∀ b ∈ ([255] : List Nat), b < 256) ∧ 3 ≤ 8 * ([255] : List Nat).length) ∧
    ∃ s, encode [255] 3 = some s ∧ s.length = (3 + 4) / 5 ∧ (3 = 0 → s = []) :=
  ⟨⟨by decide, by decide⟩, encode_length [255] 3 (by decide) (by decide)⟩

/-- C5: on the documented domain `bits ≤ 8 * length buf` the encoder is total:
the loop (in its literal guard form `encLoop` as well) returns a string, i.e.
no slice index goes out of bounds, the `len - 1` subtraction never underflows
(its branch is reached only after `buf[i]` succeeded, forcing a nonempty
buffer), every alphabet index is `< 32`, and no failure branch is reachable. -/
theorem encode_total (buf : List Nat) (bits : Nat)
    (hbytes : ∀ b ∈ buf, b < 256) (hbits : bits ≤ 8 * buf.length) :
    ∃ s, encode buf bits = some s ∧ encLoop buf bits 0 = some s := by
  obtain ⟨s, hs, _, _⟩ := encode_some buf bits hbytes hbits
  exact ⟨s, hs, by rw [← encode_eq_encLoop]; exact hs⟩

theorem encode_total_witness :
    ((∀ b ∈ ([170, 255] : List Nat), b < 256) ∧
      16 ≤ 8 * ([170, 255] : List Nat).length) ∧
    ∃ s, encode [170, 255] 16 = some s ∧ encLoop [170, 255] 16 0 = some s :=
  ⟨⟨by decide, by decide⟩, encode_total [170, 255] 16 (by decide) (by decide)⟩

/-- C6: whenever `encode` returns (also outside the documented domain), every
character of the output is a member of the 32-character alphabet — each pushed
byte comes from a successful `ALPHABET` lookup. -/
theorem encode_alphabet_closure (buf : List Nat) (bits : Nat) (s : List Char)
    (c : Char) (hs : encode buf bits = some s) (hc : c ∈ s) : c ∈ ALPHABET := by
  unfold encode at hs
  exact encGroups_mem buf (numGroups bits) 0 s hs c hc

theorem encode_alphabet_closure_witness : 'o' ∈ ALPHABET :=
  encode_alphabet_closure [128] 5 ['o'] 'o' (by decide) (by decide)

set_option maxRecDepth 4000 in
/-- C7: the concrete test vectors of the spec reproduce exactly: the fox
sentence at 64 bits, the same buffer under `encode_full_bytes`, and the single
byte `0x80` at 5 bits. -/
theorem encode_test_vectors :
    encode foxBytes 64 = some ("ktwgkedtqiwsg".toList) ∧
    encode_full_bytes foxBytes =
      some ("ktwgkedtqiwsg43ycj3g675qrbug66bypj4s4hdurbzzc3m1rb4go3jyptozw6jyctzsqmty6nx3dyy".toList) ∧
    encode [128] 5 = some ("o".toList) := by
  refine ⟨by decide, by decide, by decide⟩

/-- C8: `encode_full_bytes buf` is exactly `encode buf (8 * length buf)`; the
source passes `buf.len() * 8`. -/
theorem encode_full_bytes_eq (buf : List Nat) :
    encode_full_bytes buf = encode buf (8 * buf.length) := by
  unfold encode_full_bytes
  rw [Nat.mul_comm]

/-- C9: for multiples of 5, `bits1 < bits2 ≤ 8 * length buf`, the shorter
encoding is a prefix of the longer one. -/
theorem encode_prefix_consistent (buf : List Nat) (bits1 bits2 : Nat)
    (hbytes : ∀ b ∈ buf, b < 256) (h5a : bits1 % 5 = 0) (h5b : bits2 % 5 = 0)
    (hlt : bits1 < bits2) (hle : bits2 ≤ 8 * buf.length) :
    ∃ s1 s2 t, encode buf bits1 = some s1 ∧ encode buf bits2 = some s2 ∧
      s2 = s1 ++ t := by
  obtain ⟨s1, hs1, hlen1, _⟩ := encode_some buf bits1 hbytes (by omega)
  have hn : numGroups bits2 = numGroups bits1 + (numGroups bits2 - numGroups bits1) := by
    rw [numGroups_eq, numGroups_eq]
    omega
  obtain ⟨s2, hs2, hlen2, _⟩ := encode_some buf bits2 hbytes hle
  unfold encode at hs1 hs2
  rw [hn, encGroups_append buf _ _ 0, hs1, Option.some_bind] at hs2
  obtain ⟨t, ht, hst⟩ := Option.map_eq_some'.mp hs2
  exact ⟨s1, s2, t, hs1, by
    unfold encode
    rw [hn, encGroups_append buf _ _ 0, hs1, Option.some_bind, ht]
    simp [hst], hst.symm⟩

theorem encode_prefix_consistent_witness :
    ((∀ b ∈ ([128, 1] : List Nat), b < 256) ∧ 5 % 5 = 0 ∧ 10 % 5 = 0 ∧
      5 < 10 ∧ 10 ≤ 8 * ([128, 1] : List Nat).length) ∧
    ∃ s1 s2 t, encode [128, 1] 5 = some s1 ∧ encode [128, 1] 10 = some s2 ∧
      s2 = s1 ++ t :=
  ⟨⟨by decide, by decide, by decide, by decide, by decide⟩,
    encode_prefix_consistent [128, 1] 5 10 (by decide) (by decide) (by decide)
      (by decide) (by decide)⟩

/-- C10: for every buffer and every `bits` (the precondition-violating ones
included), `encode buf bits` behaves exactly like
`encode buf (5 * ceil(bits/5))` — the loop visits the same bit positions
`0, 5, 10, …` — returning identical strings or failing identically; likewise
for the literal guard-form loop. -/
theorem encode_round_up (buf : List Nat) (bits : Nat) :
    encode buf bits = encode buf (5 * ((bits + 4) / 5)) ∧
    encLoop buf bits 0 = encLoop buf (5 * ((bits + 4) / 5)) 0 := by
  have h : numGroups bits = numGroups (5 * ((bits + 4) / 5)) := by
    rw [numGroups_eq, numGroups_eq]
    omega
  have he : encode buf bits = encode buf (5 * ((bits + 4) / 5)) := by
    unfold encode
    rw [h]
  exact ⟨he, by rw [← encode_eq_encLoop, ← encode_eq_encLoop]; exact he⟩

end Z32
